import Mathlib

/-!
# Verification of the binary-serialize core (chops namespace)

Shallow embedding of the low-level binary codec layer:

* `byteswap.hpp` — byte-order reversal of a fixed-width integral value;
* `extract_append.hpp` — fixed-width `extract_val` / `append_val` with an
  explicit buffer endianness, and the MQTT-style variable-length integer
  codec `append_var_int` / `extract_var_int`.

Modelling conventions:

* A byte is a `Nat` (invariant `< 256` where it matters); a buffer
  (`std::byte*` region) is a `List Nat`, index 0 being the byte the
  pointer points at.
* A value of an integral-or-byte type `T` with `sizeof(T) = n` is
  modelled by its object representation, a `Nat < 2^(8*n)`.  All the
  operations in this layer (byte reversal, extract, append) act on the
  object representation only, so signed types are covered by the same
  model through the two's-complement bijection.
* The platform's native endianness (`std::endian::native`) is a
  parameter `native : Endian`; theorems quantify over it.
* C++ `int` intermediates (integral promotion in `extract_var_int`) are
  modelled explicitly as 32-bit signed values, see `toInt32` below.
-/

namespace chops

/-- `std::endian` restricted to the two values the code distinguishes. -/
inductive Endian where
  | big : Endian
  | little : Endian
deriving DecidableEq, Repr

/-- The `n` bytes of the object representation of value `v`, least
significant byte first (little-endian order). -/
def bytesLE : Nat → Nat → List Nat
  | 0, _ => []
  | n + 1, v => (v % 256) :: bytesLE n (v / 256)

/-- Read a little-endian byte list back as a value. -/
def fromLE : List Nat → Nat
  | [] => 0
  | b :: bs => b + 256 * fromLE bs

/-- Object representation of value `v` as it sits in memory on a
platform whose native endianness is `e` (`std::bit_cast` of `v` to
`std::array<std::byte, n>`). -/
def repBytes (e : Endian) (n v : Nat) : List Nat :=
  match e with
  | .little => bytesLE n v
  | .big => (bytesLE n v).reverse

/-- `std::bit_cast` from a byte array back to a value on a platform with
native endianness `e`. -/
def valFromRep (e : Endian) (l : List Nat) : Nat :=
  match e with
  | .little => fromLE l
  | .big => fromLE l.reverse

/-- `chops::byteswap` (byteswap.hpp, lines 40-50): for `sizeof(T) == 1`
return the value unchanged; otherwise `bit_cast` the value to its byte
array, `std::ranges::reverse` it, and `bit_cast` back.  `native` is the
platform endianness used by the two `bit_cast`s; `n` is `sizeof(T)`. -/
def byteswap (native : Endian) (n v : Nat) : Nat :=
  if n = 1 then v
  else valFromRep native ((repBytes native n v).reverse)

theorem length_bytesLE (n v : Nat) : (bytesLE n v).length = n := by
  induction n generalizing v with
  | zero => rfl
  | succ n ih => simp [bytesLE, ih]

theorem fromLE_bytesLE {n v : Nat} (h : v < 2 ^ (8 * n)) :
    fromLE (bytesLE n v) = v := by
  induction n generalizing v with
  | zero =>
    simp only [Nat.mul_zero, pow_zero, Nat.lt_one_iff] at h
    simp [bytesLE, fromLE, h]
  | succ n ih =>
    have hv : v / 256 < 2 ^ (8 * n) := by
      have h256 : (256 : Nat) = 2 ^ 8 := by norm_num
      rw [Nat.div_lt_iff_lt_mul (by norm_num : 0 < 256), h256, ← pow_add]
      have : 8 * n + 8 = 8 * (n + 1) := by ring
      rwa [this]
    simp only [bytesLE, fromLE, ih hv]
    omega

theorem bytesLE_mem_lt {n v : Nat} {b : Nat} (h : b ∈ bytesLE n v) : b < 256 := by
  induction n generalizing v with
  | zero => simp [bytesLE] at h
  | succ n ih =>
    simp only [bytesLE, List.mem_cons] at h
    rcases h with h | h
    · omega
    · exact ih h

theorem fromLE_lt {l : List Nat} (h : ∀ b ∈ l, b < 256) :
    fromLE l < 2 ^ (8 * l.length) := by
  induction l with
  | nil => simp [fromLE]
  | cons b bs ih =>
    have hb : b < 256 := h b (List.mem_cons_self b bs)
    have hbs : fromLE bs < 2 ^ (8 * bs.length) := ih fun x hx => h x (List.mem_cons_of_mem b hx)
    simp only [fromLE, List.length_cons]
    have : 8 * (bs.length + 1) = 8 * bs.length + 8 := by ring
    rw [this, pow_add]
    have : (2 : Nat) ^ 8 = 256 := by norm_num
    nlinarith

theorem bytesLE_fromLE {l : List Nat} (h : ∀ b ∈ l, b < 256) :
    bytesLE l.length (fromLE l) = l := by
  induction l with
  | nil => rfl
  | cons b bs ih =>
    have hb : b < 256 := h b (List.mem_cons_self b bs)
    have hrec := ih fun x hx => h x (List.mem_cons_of_mem b hx)
    simp only [List.length_cons, bytesLE, fromLE]
    have hmod : (b + 256 * fromLE bs) % 256 = b := by omega
    have hdiv : (b + 256 * fromLE bs) / 256 = fromLE bs := by omega
    rw [hmod, hdiv, hrec]

/-- `byteswap` does not depend on the platform endianness used by the two
`bit_cast`s: it always reverses the little-endian digit list. -/
theorem byteswap_eq (native : Endian) (n v : Nat) :
    byteswap native n v = if n = 1 then v else fromLE (bytesLE n v).reverse := by
  cases native <;> simp [byteswap, repBytes, valFromRep]

theorem byteswap_lt {native : Endian} {n v : Nat} (h : v < 2 ^ (8 * n)) :
    byteswap native n v < 2 ^ (8 * n) := by
  rw [byteswap_eq]
  by_cases h1 : n = 1
  · simpa [h1] using h
  · simp only [h1, if_false]
    have := fromLE_lt (l := (bytesLE n v).reverse)
      (fun b hb => bytesLE_mem_lt (List.mem_reverse.mp hb))
    simpa [length_bytesLE] using this

theorem byteswap_byteswap {native : Endian} {n v : Nat} (h : v < 2 ^ (8 * n)) :
    byteswap native n (byteswap native n v) = v := by
  rw [byteswap_eq, byteswap_eq]
  by_cases h1 : n = 1
  · simp [h1]
  · simp only [h1, if_false]
    have hmem : ∀ b ∈ (bytesLE n v).reverse, b < 256 :=
      fun b hb => bytesLE_mem_lt (List.mem_reverse.mp hb)
    have hlen : ((bytesLE n v).reverse).length = n := by simp [length_bytesLE]
    have hb : bytesLE n (fromLE (bytesLE n v).reverse) = (bytesLE n v).reverse := by
      have h2 := bytesLE_fromLE hmem
      rwa [hlen] at h2
    rw [hb, List.reverse_reverse, fromLE_bytesLE h]

/-- Write the bytes `bs` into `buf` starting at index `i`
(`output[i] = b0; output[i+1] = b1; ...`). -/
def writeBytes : List Nat → Nat → List Nat → List Nat
  | buf, _, [] => buf
  | buf, i, b :: bs => writeBytes (buf.set i b) (i + 1) bs

/-- `chops::extract_val<BufEndian, T>` (extract_append.hpp, lines 106-115):
copy `sizeof(T)` bytes from `buf` into a local representation, `bit_cast`
to `T`, and byteswap the result when the buffer endianness differs from
native and `sizeof(T) != 1`.  `native` is `std::endian::native`, `bufE`
is the `BufEndian` template argument, `n` is `sizeof(T)`. -/
def extract_val (native bufE : Endian) (n : Nat) (buf : List Nat) : Nat :=
  let tmp_val := valFromRep native (buf.take n)
  if bufE ≠ native ∧ n ≠ 1 then byteswap native n tmp_val else tmp_val

/-- `chops::append_val<BufEndian, T>` (extract_append.hpp, lines 139-148):
byteswap a local copy of `val` when the buffer endianness differs from
native and `sizeof(T) != 1`, copy its representation bytes into `buf`, and
return `sizeof(T)`.  Result: (bytes written, updated buffer). -/
def append_val (native bufE : Endian) (n : Nat) (buf : List Nat) (val : Nat) :
    Nat × List Nat :=
  let tmp_val := if bufE ≠ native ∧ n ≠ 1 then byteswap native n val else val
  (n, writeBytes buf 0 (repBytes native n tmp_val))

theorem writeBytes_cons_succ {bs : List Nat} {x : Nat} {buf : List Nat} {i : Nat} :
    writeBytes (x :: buf) (i + 1) bs = x :: writeBytes buf i bs := by
  induction bs generalizing buf i x with
  | nil => rfl
  | cons b bs ih =>
    simp only [writeBytes, List.set_cons_succ]
    exact ih

theorem writeBytes_zero_append {bs buf : List Nat} (h : bs.length ≤ buf.length) :
    writeBytes buf 0 bs = bs ++ buf.drop bs.length := by
  induction bs generalizing buf with
  | nil => simp [writeBytes]
  | cons b bs ih =>
    cases buf with
    | nil => simp at h
    | cons c rest =>
      simp only [writeBytes, List.set_cons_zero, writeBytes_cons_succ, List.length_cons,
        List.drop_succ_cons, List.cons_append]
      simp only [List.length_cons] at h
      rw [ih (by omega)]

theorem writeBytes_drop {buf bs : List Nat} {i m : Nat}
    (h : i + bs.length ≤ m) :
    (writeBytes buf i bs).drop m = buf.drop m := by
  induction bs generalizing buf i with
  | nil => simp [writeBytes]
  | cons b bs ih =>
    simp only [writeBytes]
    simp only [List.length_cons] at h
    rw [ih (by omega), List.drop_set_of_lt _ _ (by omega)]

theorem writeBytes_length {buf bs : List Nat} {i : Nat} :
    (writeBytes buf i bs).length = buf.length := by
  induction bs generalizing buf i with
  | nil => rfl
  | cons b bs ih => simp [writeBytes, ih]

theorem valFromRep_repBytes {e : Endian} {n v : Nat} (h : v < 2 ^ (8 * n)) :
    valFromRep e (repBytes e n v) = v := by
  cases e <;> simp [valFromRep, repBytes, fromLE_bytesLE h]

theorem length_repBytes (e : Endian) (n v : Nat) : (repBytes e n v).length = n := by
  cases e <;> simp [repBytes, length_bytesLE]

/-- `chops::append_var_int` loop (extract_append.hpp, lines 183-199).
While more than 7 bits remain (`val > 127`), write the low 7 bits with
the continuation flag (`(val & 127) | 128`) and shift `val` right by 7;
then write the final byte `static_cast<uint8_t>(val) & 127`.  The C++
buffer write `output[output_size] = b` is `output.set output_size b`.
Returns `(output_size, updated buffer)`. -/
def append_var_int_loop (output : List Nat) (output_size : Nat) (val : Nat) :
    Nat × List Nat :=
  if h : 127 < val then
    append_var_int_loop (output.set output_size ((val &&& 127) ||| 128))
      (output_size + 1) (val >>> 7)
  else
    (output_size + 1, output.set output_size ((val % 2 ^ 8) &&& 127))
termination_by val
decreasing_by
  rw [Nat.shiftRight_eq_div_pow]
  exact Nat.div_lt_self (by omega) (by norm_num)

/-- `chops::append_var_int<T>` (extract_append.hpp, lines 183-199): the
loop above started with `output_size = 0`.  `val` is the value of the
unsigned argument (any `Nat`; a `T`-typed argument satisfies
`val < 2^(8*sizeof(T))`, which the loop never exceeds). -/
def append_var_int (output : List Nat) (val : Nat) : Nat × List Nat :=
  append_var_int_loop output 0 val

/-- The sequence of encoded bytes produced by the `append_var_int` loop
for value `val`, in the order they are written. -/
def varBytes (val : Nat) : List Nat :=
  if h : 127 < val then ((val &&& 127) ||| 128) :: varBytes (val >>> 7)
  else [(val % 2 ^ 8) &&& 127]
termination_by val
decreasing_by
  rw [Nat.shiftRight_eq_div_pow]
  exact Nat.div_lt_self (by omega) (by norm_num)

/-- The C++ `int` value of the expression
`(std::bit_cast<std::uint8_t>(input[i]) & 127) << (7 * i)` for a
non-negative 32-bit-promoted operand `m`:
the value congruent to `m` modulo `2^32`, represented in
`[-2^31, 2^31)` (two's-complement `int`).  C++20 defines a signed left
shift this way whenever the shift count is below the width of `int`
(32); for larger counts the standard gives no value and the model
extends by the same congruence. -/
def toInt32 (m : Nat) : Int :=
  if m % 2 ^ 32 < 2 ^ 31 then ((m % 2 ^ 32 : Nat) : Int)
  else ((m % 2 ^ 32 : Nat) : Int) - 2 ^ 32

/-- C++ conversion of a signed `int` value to a `w`-bit unsigned integer
type: reduce modulo `2^w` (two's-complement sign extension for negative
values).  This is the conversion applied to the right-hand side of
`ret |= ...` in `extract_var_int`. -/
def toUIntW (w : Nat) (x : Int) : Nat :=
  (x % ((2 ^ w : Nat) : Int)).toNat

/-- `chops::extract_var_int` loop (extract_append.hpp, lines 214-225):
`for (i = 0; i < input_size; ++i) { ret |= (input[i] & 127) << (7*i);
if (!(input[i] & 128)) break; }`.  The loop counter is modelled by the
number `rem = input_size - i` of remaining iterations (structural
recursion); `i` is the current index and `ret` the accumulator.
`w = 8 * sizeof(T)` is the bit width of the unsigned destination type.
The shifted 7-bit group is computed in C++ `int` (integral promotion of
`uint8_t & 127`), then converted to `T` by the `|=`; `toInt32`/`toUIntW`
model those two steps. -/
def extract_var_int_go (w : Nat) (input : List Nat) : Nat → Nat → Nat → Nat
  | 0, _, ret => ret
  | rem + 1, i, ret =>
    let b := input.getD i 0
    let ret2 := ret ||| toUIntW w (toInt32 ((b &&& 127) <<< (7 * i)))
    if b &&& 128 = 0 then ret2 else extract_var_int_go w input rem (i + 1) ret2

/-- `chops::extract_var_int<T>` (extract_append.hpp, lines 214-225):
run the loop from index 0 with accumulator `T ret = 0`. -/
def extract_var_int (w : Nat) (input : List Nat) (input_size : Nat) : Nat :=
  extract_var_int_go w input input_size 0 0

theorem append_var_int_loop_eq (output : List Nat) (i val : Nat) :
    append_var_int_loop output i val =
      (i + (varBytes val).length, writeBytes output i (varBytes val)) := by
  induction val using Nat.strong_induction_on generalizing output i with
  | _ val ih =>
    rw [append_var_int_loop, varBytes]
    by_cases h : 127 < val
    · have hlt : val >>> 7 < val := by
        rw [Nat.shiftRight_eq_div_pow]
        exact Nat.div_lt_self (by omega) (by norm_num)
      simp only [h, dif_pos, List.length_cons]
      rw [ih (val >>> 7) hlt, Prod.mk.injEq]
      exact ⟨by omega, rfl⟩
    · simp only [h, dif_neg, not_false_iff, List.length_singleton]
      rfl

theorem size_shiftRight_seven {val : Nat} (h : 127 < val) :
    Nat.size (val >>> 7) = Nat.size val - 7 ∧ 8 ≤ Nat.size val := by
  have h8 : 8 ≤ Nat.size val := Nat.lt_size.mpr (by norm_num; omega)
  rw [Nat.shiftRight_eq_div_pow]
  have hpow : (2 : Nat) ^ 7 = 128 := by norm_num
  rw [hpow]
  refine ⟨Nat.le_antisymm ?_ ?_, h8⟩
  · rw [Nat.size_le, Nat.div_lt_iff_lt_mul (by norm_num : 0 < 128)]
    have : 2 ^ (Nat.size val - 7) * 128 = 2 ^ Nat.size val := by
      rw [← hpow, ← pow_add]
      congr 1
      omega
    rw [this]
    exact Nat.lt_size_self val
  · have hdiv : val / 128 < 2 ^ Nat.size (val / 128) := Nat.lt_size_self _
    have hval : val < 2 ^ (Nat.size (val / 128)) * 128 := by omega
    have : val < 2 ^ (Nat.size (val / 128) + 7) := by
      rw [pow_add, hpow]
      exact hval
    have := Nat.size_le.mpr this
    omega

theorem varBytes_length (val : Nat) :
    (varBytes val).length = (max 1 (Nat.size val) + 6) / 7 := by
  induction val using Nat.strong_induction_on with
  | _ val ih =>
    rw [varBytes]
    by_cases h : 127 < val
    · have hlt : val >>> 7 < val := by
        rw [Nat.shiftRight_eq_div_pow]
        exact Nat.div_lt_self (by omega) (by norm_num)
      obtain ⟨hsize, h8⟩ := size_shiftRight_seven h
      simp only [h, dif_pos, List.length_cons]
      rw [ih (val >>> 7) hlt, hsize]
      omega
    · have h7 : Nat.size val ≤ 7 := Nat.size_le.mpr (by norm_num; omega)
      simp only [h, dif_neg, not_false_iff, List.length_singleton]
      omega

/-- Composite behaviour of an `append_val` with buffer endianness `bufE1`
followed by an `extract_val` with buffer endianness `bufE2` over the same
bytes: each side byteswaps exactly when its endianness argument differs
from native and `sizeof(T) != 1`. -/
theorem extract_val_append_val (native bufE1 bufE2 : Endian) {n v : Nat}
    {buf : List Nat} (hv : v < 2 ^ (8 * n)) (hbuf : n ≤ buf.length) :
    extract_val native bufE2 n (append_val native bufE1 n buf v).2 =
      (if bufE2 ≠ native ∧ n ≠ 1 then
         byteswap native n (if bufE1 ≠ native ∧ n ≠ 1 then byteswap native n v else v)
       else (if bufE1 ≠ native ∧ n ≠ 1 then byteswap native n v else v)) := by
  have htmp : (if bufE1 ≠ native ∧ n ≠ 1 then byteswap native n v else v) < 2 ^ (8 * n) := by
    split
    · exact byteswap_lt hv
    · exact hv
  simp only [extract_val, append_val]
  rw [writeBytes_zero_append (by rw [length_repBytes]; exact hbuf),
      List.take_left' (length_repBytes native n _),
      valFromRep_repBytes htmp]

/-- C2: fixed-width same-endianness round trip.  For every platform
endianness, buffer endianness `bufE`, type size `n`, and value `v`
representable in `n` bytes, extracting with `extract_val` right after
`append_val` wrote `v` into an adequately sized buffer returns `v`. -/
theorem extract_val_append_val_roundtrip (native bufE : Endian) (n v : Nat)
    (buf : List Nat) (hv : v < 2 ^ (8 * n)) (hbuf : n ≤ buf.length) :
    extract_val native bufE n (append_val native bufE n buf v).2 = v := by
  rw [extract_val_append_val native bufE bufE hv hbuf]
  by_cases hc : bufE ≠ native ∧ n ≠ 1
  · rw [if_pos hc, if_pos hc, byteswap_byteswap hv]
  · rw [if_neg hc, if_neg hc]

/-- C2 witness: the round trip at `native = little`, `bufE = big`,
`n = 4`, `v = 0x04030201` on a 4-byte buffer. -/
theorem extract_val_append_val_roundtrip_witness :
    0x04030201 < 2 ^ (8 * 4) ∧ 4 ≤ ([0, 0, 0, 0] : List Nat).length ∧
    extract_val .little .big 4 (append_val .little .big 4 [0, 0, 0, 0] 0x04030201).2 =
      0x04030201 :=
  ⟨by norm_num, by norm_num,
    extract_val_append_val_roundtrip .little .big 4 0x04030201 [0, 0, 0, 0]
      (by norm_num) (by norm_num)⟩

/-- C3: fixed-width cross-endianness relation.  Appending `v` as
big-endian and extracting the same bytes as little-endian (and vice
versa) yields `byteswap v` when `sizeof(T) > 1` and `v` unchanged when
`sizeof(T) == 1`, whatever the platform endianness. -/
theorem extract_val_append_val_cross (native : Endian) (n v : Nat)
    (buf : List Nat) (hv : v < 2 ^ (8 * n)) (hbuf : n ≤ buf.length) :
    extract_val native .little n (append_val native .big n buf v).2 =
      (if n = 1 then v else byteswap native n v) ∧
    extract_val native .big n (append_val native .little n buf v).2 =
      (if n = 1 then v else byteswap native n v) := by
  constructor <;> rw [extract_val_append_val _ _ _ hv hbuf] <;>
    cases native <;> by_cases h1 : n = 1 <;> simp [h1]

/-- C3 witness: at `native = little`, `n = 4`, `v = 0xDDCCBBAA` the
cross-endianness extraction yields `byteswap v = 0xAABBCCDD`. -/
theorem extract_val_append_val_cross_witness :
    0xDDCCBBAA < 2 ^ (8 * 4) ∧ 4 ≤ ([0, 0, 0, 0] : List Nat).length ∧
    extract_val .little .little 4 (append_val .little .big 4 [0, 0, 0, 0] 0xDDCCBBAA).2 =
      (if 4 = 1 then 0xDDCCBBAA else byteswap .little 4 0xDDCCBBAA) :=
  ⟨by norm_num, by norm_num,
    (extract_val_append_val_cross .little 4 0xDDCCBBAA [0, 0, 0, 0]
      (by norm_num) (by norm_num)).1⟩

/-- C5: byte reversal is self-inverse for multi-byte values and the
identity on 1-byte values: for `sizeof(T) > 1` and any representable
`x`, `byteswap (byteswap x) = x`; for `sizeof(T) == 1`,
`byteswap x = x`. -/
theorem byteswap_self_inverse (native : Endian) (n x : Nat) :
    (1 < n → x < 2 ^ (8 * n) → byteswap native n (byteswap native n x) = x) ∧
    byteswap native 1 x = x :=
  ⟨fun _ hx => byteswap_byteswap hx, by simp [byteswap]⟩

/-- C5 witness: `n = 4`, `x = 0xDDCCBBAA` (double swap restores) and the
1-byte identity at `x = 0xAB`. -/
theorem byteswap_self_inverse_witness :
    (1 < 4 ∧ 0xDDCCBBAA < 2 ^ (8 * 4) ∧
      byteswap .big 4 (byteswap .big 4 0xDDCCBBAA) = 0xDDCCBBAA) ∧
    byteswap .big 1 0xAB = 0xAB :=
  ⟨⟨by norm_num, by norm_num,
    (byteswap_self_inverse .big 4 0xDDCCBBAA).1 (by norm_num) (by norm_num)⟩,
    (byteswap_self_inverse .big 1 0xAB).2⟩

/-- C9: append writes exactly and only what it reports.  `append_val`
returns `sizeof(T)` and leaves every byte at offset `>= sizeof(T)`
unchanged (and never changes the buffer's extent); `append_var_int`
leaves every byte at offset `>=` its returned count unchanged. -/
theorem append_frame (native bufE : Endian) (n : Nat) (buf : List Nat) (v : Nat) :
    (append_val native bufE n buf v).1 = n ∧
    (append_val native bufE n buf v).2.drop n = buf.drop n ∧
    (append_val native bufE n buf v).2.length = buf.length ∧
    (append_var_int buf v).2.drop (append_var_int buf v).1 =
      buf.drop (append_var_int buf v).1 ∧
    (append_var_int buf v).2.length = buf.length := by
  refine ⟨rfl, ?_, writeBytes_length, ?_, ?_⟩
  · exact writeBytes_drop (by rw [length_repBytes]; omega)
  · rw [append_var_int, append_var_int_loop_eq]
    exact writeBytes_drop (by omega)
  · rw [append_var_int, append_var_int_loop_eq]
    exact writeBytes_length

/-- C4: encoded length formula.  The byte count returned by
`append_var_int` is `ceil(max(1, bit_length v) / 7)` (with `Nat.size`
as bit length); in particular the count is at least 1, and value 0 is
encoded as the single byte 0. -/
theorem append_var_int_length (buf : List Nat) (v : Nat) :
    (append_var_int buf v).1 = (max 1 (Nat.size v) + 6) / 7 ∧
    1 ≤ (append_var_int buf v).1 ∧
    append_var_int buf 0 = (1, buf.set 0 0) := by
  refine ⟨?_, ?_, ?_⟩
  · rw [append_var_int, append_var_int_loop_eq]
    simpa using varBytes_length v
  · rw [append_var_int, append_var_int_loop_eq]
    simp only [Nat.zero_add]
    rw [varBytes_length v]
    omega
  · rw [append_var_int, append_var_int_loop]
    norm_num

/-- C6: literal encode boundary cases, on a 10-byte zeroed buffer:
`0x7F` gives 1 byte equal to 127 (continuation bit clear); `0x80` gives
the 2 bytes `[0x80, 0x01]`; `0x10000000` gives the 5 bytes
`[0x80, 0x80, 0x80, 0x80, 0x01]`; `0xFFFFFFFF` gives 5 bytes; the
64-bit value `0xFFFFFFFFFFFFFFFF` gives 10 bytes. -/
theorem append_var_int_literals :
    append_var_int (List.replicate 10 0) 0x7F = (1, [0x7F, 0, 0, 0, 0, 0, 0, 0, 0, 0]) ∧
    0x7F &&& 128 = 0 ∧
    append_var_int (List.replicate 10 0) 0x80 =
      (2, [0x80, 0x01, 0, 0, 0, 0, 0, 0, 0, 0]) ∧
    append_var_int (List.replicate 10 0) 0x10000000 =
      (5, [0x80, 0x80, 0x80, 0x80, 0x01, 0, 0, 0, 0, 0]) ∧
    (append_var_int (List.replicate 10 0) 0xFFFFFFFF).1 = 5 ∧
    (append_var_int (List.replicate 10 0) 0xFFFFFFFFFFFFFFFF).1 = 10 := by
  refine ⟨?_, by decide, ?_, ?_, ?_, ?_⟩ <;> simp [append_var_int, append_var_int_loop] <;> decide

/-- C7: literal decode cases (destination type `std::uint32_t`, so
`w = 32`): `[0xFE, 0xCA]` with length 2 decodes to 9598; `[0x7F]` with
length 1 decodes to 127; `[0x80, 0x01]` with length 2 decodes to 128. -/
theorem extract_var_int_literals :
    extract_var_int 32 [0xFE, 0xCA] 2 = 9598 ∧
    extract_var_int 32 [0x7F] 1 = 127 ∧
    extract_var_int 32 [0x80, 0x01] 2 = 128 := by
  refine ⟨?_, ?_, ?_⟩ <;> decide

theorem toUIntW_lt (w : Nat) (x : Int) : toUIntW w x < 2 ^ w := by
  unfold toUIntW
  have hpos : (0 : Int) < ((2 ^ w : Nat) : Int) := by positivity
  have h1 : x % ((2 ^ w : Nat) : Int) < ((2 ^ w : Nat) : Int) := Int.emod_lt_of_pos x hpos
  have h2 : 0 ≤ x % ((2 ^ w : Nat) : Int) := Int.emod_nonneg x (ne_of_gt hpos)
  omega

theorem extract_var_int_go_lt {w : Nat} {input : List Nat} {rem i ret : Nat}
    (h : ret < 2 ^ w) : extract_var_int_go w input rem i ret < 2 ^ w := by
  induction rem generalizing i ret with
  | zero => exact h
  | succ rem ih =>
    simp only [extract_var_int_go]
    have h2 : ret ||| toUIntW w (toInt32 ((input.getD i 0 &&& 127) <<< (7 * i))) < 2 ^ w :=
      Nat.or_lt_two_pow h (toUIntW_lt _ _)
    split
    · exact h2
    · exact ih h2

/-- C8: decode totality.  `extract_var_int` is a total function of the
byte list and the length: on any input it yields a numeric value
representable in the `w`-bit destination type (no error is signalled),
and with length 0 it yields 0. -/
theorem extract_var_int_total (w : Nat) (input : List Nat) (input_size : Nat) :
    extract_var_int w input 0 = 0 ∧ extract_var_int w input input_size < 2 ^ w := by
  constructor
  · rfl
  · exact extract_var_int_go_lt (by positivity)

theorem extract_var_int_go_congr {w : Nat} {input1 input2 : List Nat} {j : Nat}
    (hterm : input1.getD j 0 &&& 128 = 0)
    (hagree : ∀ i, i ≤ j → input1.getD i 0 = input2.getD i 0) :
    ∀ rem i ret, i ≤ j → j < i + rem →
      extract_var_int_go w input1 rem i ret = extract_var_int_go w input2 rem i ret := by
  intro rem
  induction rem with
  | zero => omega
  | succ rem ih =>
    intro i ret hij hjn
    simp only [extract_var_int_go]
    rw [← hagree i hij]
    split
    · rfl
    · rename_i hcont
      have hne : i ≠ j := fun he => hcont (he ▸ hterm)
      exact ih (i + 1) _ (by omega) (by omega)

/-- C10: bytes after the terminating byte never influence decoding.  If
two buffers agree at every position up to and including the first byte
whose continuation bit is clear (position `j`, with `j` within the given
length), `extract_var_int` returns the same value on both. -/
theorem extract_var_int_terminator_congr (w : Nat) (input1 input2 : List Nat)
    (n j : Nat) (hj : j < n)
    (hterm : input1.getD j 0 &&& 128 = 0)
    (hagree : ∀ i, i ≤ j → input1.getD i 0 = input2.getD i 0)
    (hfirst : ∀ i, i < j → input1.getD i 0 &&& 128 ≠ 0) :
    extract_var_int w input1 n = extract_var_int w input2 n :=
  extract_var_int_go_congr hterm hagree n 0 0 (by omega) (by omega)

/-- C10 witness: `[0x05, 0xAA]` and `[0x05, 0xBB]` agree up to the
terminator at position 0, so both decode to the same value with
length 2. -/
theorem extract_var_int_terminator_congr_witness :
    0 < 2 ∧ ([0x05, 0xAA] : List Nat).getD 0 0 &&& 128 = 0 ∧
    (∀ i, i ≤ 0 → ([0x05, 0xAA] : List Nat).getD i 0 = ([0x05, 0xBB] : List Nat).getD i 0) ∧
    extract_var_int 32 [0x05, 0xAA] 2 = extract_var_int 32 [0x05, 0xBB] 2 :=
  ⟨by decide, by decide, by decide,
    extract_var_int_terminator_congr 32 [0x05, 0xAA] [0x05, 0xBB] 2 0 (by decide)
      (by decide) (by decide) (fun i hi => absurd hi (Nat.not_lt_zero i))⟩

/-- C1 (failing case): the variable-length round trip breaks for the
64-bit destination type.  Encoding `v = 2^31 = 0x80000000` (as
`std::uint64_t`) writes the 5 bytes `[0x80, 0x80, 0x80, 0x80, 0x08]`,
but decoding them with `extract_var_int<std::uint64_t>` (`w = 64`) and
the returned length 5 yields `0xFFFFFFFF80000000`, not `2^31`: the
7-bit group `8 << 28` is computed in 32-bit `int`, becomes negative,
and is sign-extended by the conversion to the 64-bit accumulator.  All
shift counts involved are below 32, so this run has fully defined C++
semantics. -/
theorem var_int_roundtrip_bug_uint64 :
    append_var_int (List.replicate 10 0) (2 ^ 31) =
      (5, [0x80, 0x80, 0x80, 0x80, 0x08, 0, 0, 0, 0, 0]) ∧
    extract_var_int 64 [0x80, 0x80, 0x80, 0x80, 0x08] 5 = 0xFFFFFFFF80000000 ∧
    (0xFFFFFFFF80000000 : Nat) ≠ 2 ^ 31 := by
  refine ⟨?_, by decide, by decide⟩
  simp [append_var_int, append_var_int_loop] <;> decide
